import Mathlib

/-!
# Verification of the portfolio analytics computation layer

Shallow embedding, over `ℚ` (exact arithmetic in place of IEEE doubles) and
`ℝ` (for square roots), of the quantitative core of the portfolio dashboard
in `src/api/ai-commentary.ts`:

* long-only weight renormalization (`normalizeWeightsLongOnly`,
  `updateWeightWithRenormalization`),
* series alignment (`alignSeriesToCommonLength`),
* statistics (`mean`, `covarianceMatrix`, `correlationFromCov`),
* the risk-bucketed efficient-frontier envelope of
  `generateEfficientFrontier`,
* CSV ingestion (`parseCsvOhlcvCloseReturns`).

Each definition mirrors the corresponding TypeScript function; comments on
the definitions note the few places where an imperative construction
(in-place array writes, `reduce` with an index) is rendered by its
functional final-state description.
-/

/-- `clamp(x, min, max) = Math.max(min, Math.min(max, x))`. -/
def clamp (x lo hi : ℚ) : ℚ := max lo (min hi x)

/-- `normalizeWeightsLongOnly` (source lines 334–339): clip each weight to
`max 0 x`; if the clipped sum is `≤ 0` return the uniform vector
`1/length`, otherwise divide every entry by the clipped sum. -/
def normalizeWeightsLongOnly (w : List ℚ) : List ℚ :=
  let clipped := w.map fun x => max 0 x
  let s := clipped.sum
  if s ≤ 0 then clipped.map fun _ => 1 / (clipped.length : ℚ)
  else clipped.map fun x => x / s

/-- The `prev.reduce((acc, x, i) => (i === idx ? acc : acc + x), 0)` of
`updateWeightWithRenormalization`: the sum of all entries except the one at
`idx`, written as the same indexed left fold. -/
def otherSum (w : List ℚ) (idx : ℕ) : ℚ :=
  w.enum.foldl (fun acc p => if p.1 = idx then acc else acc + p.2) 0

/-- `updateWeightWithRenormalization` (source lines 341–366). The source
copies `prev` into `next`, writes `next[idx] = v` and then overwrites every
`next[i]` with `i ≠ idx`; for an index `idx < prev.length` the resulting
array is exactly the index-wise map over `0..n-1` written here (the
`n === 1` early return ignores the write and returns `[1]`). -/
def updateWeightWithRenormalization (prev : List ℚ) (idx : ℕ) (nextValue : ℚ) : List ℚ :=
  if prev.length = 1 then [1]
  else if otherSum prev idx ≤ 1 / 1000000000 then
    normalizeWeightsLongOnly ((List.range prev.length).map fun i =>
      if i = idx then clamp nextValue 0 1
      else (1 - clamp nextValue 0 1) / ((prev.length : ℚ) - 1))
  else
    normalizeWeightsLongOnly ((List.range prev.length).map fun i =>
      if i = idx then clamp nextValue 0 1
      else prev.getD i 0 * ((1 - clamp nextValue 0 1) / otherSum prev idx))

/-! ## List-arithmetic helper lemmas -/

theorem list_foldl_add {α : Type} (f : α → ℚ) :
    ∀ (l : List α) (a : ℚ), l.foldl (fun acc x => acc + f x) a = a + (l.map f).sum := by
  intro l
  induction l with
  | nil => intro a; simp
  | cons x xs ih => intro a; simp [List.foldl_cons, ih, add_assoc]

theorem list_enumFrom_map_sum (g : ℕ × ℚ → ℚ) :
    ∀ (l : List ℚ) (k : ℕ),
      ((List.enumFrom k l).map g).sum = ∑ i ∈ Finset.range l.length, g (k + i, l.getD i 0) := by
  intro l
  induction l with
  | nil => intro k; simp
  | cons x xs ih =>
    intro k
    rw [List.enumFrom, List.map_cons, List.sum_cons, ih (k + 1), List.length_cons,
      Finset.sum_range_succ']
    simp only [List.getD_cons_succ, List.getD_cons_zero, Nat.add_zero]
    rw [add_comm]
    congr 1
    apply Finset.sum_congr rfl
    intro i _
    congr 2
    omega

theorem range_map_sum (n : ℕ) (f : ℕ → ℚ) :
    ((List.range n).map f).sum = ∑ i ∈ Finset.range n, f i := by
  induction n with
  | zero => simp
  | succ m ih => rw [List.range_succ]; simp [ih, Finset.sum_range_succ]

theorem otherSum_eq_sum (w : List ℚ) (idx : ℕ) :
    otherSum w idx = ∑ i ∈ Finset.range w.length, if i = idx then 0 else w.getD i 0 := by
  have hfun : (fun (acc : ℚ) (p : ℕ × ℚ) => if p.1 = idx then acc else acc + p.2)
      = fun acc p => acc + (if p.1 = idx then 0 else p.2) := by
    funext acc p
    by_cases h : p.1 = idx <;> simp [h]
  rw [otherSum, hfun]
  refine (list_foldl_add (fun p : ℕ × ℚ => if p.1 = idx then 0 else p.2) w.enum 0).trans ?_
  rw [zero_add]
  refine (list_enumFrom_map_sum (fun p : ℕ × ℚ => if p.1 = idx then 0 else p.2) w 0).trans ?_
  simp

theorem list_sum_map_div (l : List ℚ) (s : ℚ) :
    (l.map fun x => x / s).sum = l.sum / s := by
  induction l with
  | nil => simp
  | cons x xs ih => simp [ih, add_div]

theorem sum_ite_index (n idx : ℕ) (hidx : idx < n) (v : ℚ) (g : ℕ → ℚ) :
    (∑ i ∈ Finset.range n, if i = idx then v else g i)
      = v + ∑ i ∈ Finset.range n, if i = idx then 0 else g i := by
  have hsplit : ∀ i, (if i = idx then v else g i)
      = (if i = idx then v else 0) + (if i = idx then 0 else g i) := by
    intro i
    by_cases h : i = idx <;> simp [h]
  calc (∑ i ∈ Finset.range n, if i = idx then v else g i)
      = ∑ i ∈ Finset.range n,
          ((if i = idx then v else 0) + (if i = idx then 0 else g i)) :=
        Finset.sum_congr rfl fun i _ => hsplit i
    _ = (∑ i ∈ Finset.range n, if i = idx then v else 0)
          + ∑ i ∈ Finset.range n, if i = idx then 0 else g i := Finset.sum_add_distrib
    _ = v + ∑ i ∈ Finset.range n, if i = idx then 0 else g i := by
        rw [Finset.sum_ite_eq' (Finset.range n) idx (fun _ => v)]
        simp [Finset.mem_range.mpr hidx]

/-! ## Facts about `normalizeWeightsLongOnly` -/

theorem normalize_length (w : List ℚ) :
    (normalizeWeightsLongOnly w).length = w.length := by
  simp only [normalizeWeightsLongOnly]
  split <;> simp

theorem normalize_nonneg (w : List ℚ) :
    ∀ x ∈ normalizeWeightsLongOnly w, 0 ≤ x := by
  intro x hx
  simp only [normalizeWeightsLongOnly] at hx
  split at hx
  · obtain ⟨y, _, hy⟩ := List.mem_map.mp hx
    rw [← hy]
    positivity
  · rename_i hs
    obtain ⟨y, hymem, hy⟩ := List.mem_map.mp hx
    obtain ⟨z, _, hz⟩ := List.mem_map.mp hymem
    rw [← hy]
    apply div_nonneg
    · rw [← hz]; exact le_max_left 0 z
    · exact le_of_lt (lt_of_not_le hs)

theorem normalize_sum (w : List ℚ) (h : w ≠ []) :
    (normalizeWeightsLongOnly w).sum = 1 := by
  have hlen : (w.map fun x => max 0 x).length = w.length := List.length_map _ _
  have hne : (0 : ℚ) < w.length := by
    have : w.length ≠ 0 := fun hc => h (List.length_eq_zero.mp hc)
    exact_mod_cast Nat.pos_of_ne_zero this
  simp only [normalizeWeightsLongOnly]
  split
  · rw [List.map_const', List.sum_replicate, nsmul_eq_mul, hlen]
    rw [mul_one_div]
    exact div_self (ne_of_gt hne)
  · rename_i hs
    rw [list_sum_map_div]
    exact div_self (ne_of_gt (lt_of_not_le hs))

theorem normalize_of_nonneg_sum_one (L : List ℚ) (h0 : ∀ x ∈ L, 0 ≤ x)
    (h1 : L.sum = 1) : normalizeWeightsLongOnly L = L := by
  have hclip : (L.map fun x => max 0 x) = L := by
    have : (L.map fun x => max 0 x) = L.map id :=
      List.map_congr_left fun a ha => max_eq_right (h0 a ha)
    rw [this, List.map_id]
  simp only [normalizeWeightsLongOnly, hclip, h1]
  rw [if_neg (by norm_num)]
  have : (L.map fun x => x / 1) = L.map id :=
    List.map_congr_left fun a _ => div_one a
  rw [this, List.map_id]

/-! ## Facts about `updateWeightWithRenormalization` -/

theorem update_length (prev : List ℚ) (idx : ℕ) (v : ℚ) :
    (updateWeightWithRenormalization prev idx v).length = prev.length := by
  simp only [updateWeightWithRenormalization]
  split
  · rename_i h; simp [h]
  · split <;> simp [normalize_length]

theorem update_nonneg_sum (prev : List ℚ) (idx : ℕ) (v : ℚ) (h : prev ≠ []) :
    (∀ x ∈ updateWeightWithRenormalization prev idx v, 0 ≤ x) ∧
      (updateWeightWithRenormalization prev idx v).sum = 1 := by
  have hn : prev.length ≠ 0 := fun hc => h (List.length_eq_zero.mp hc)
  have hrange : ((List.range prev.length).map fun i =>
      if i = idx then clamp v 0 1
      else (1 - clamp v 0 1) / ((prev.length : ℚ) - 1)) ≠ [] := by
    simp [List.map_eq_nil_iff, List.range_eq_nil, hn]
  have hrange2 : ((List.range prev.length).map fun i =>
      if i = idx then clamp v 0 1
      else prev.getD i 0 * ((1 - clamp v 0 1) / otherSum prev idx)) ≠ [] := by
    simp [List.map_eq_nil_iff, List.range_eq_nil, hn]
  simp only [updateWeightWithRenormalization]
  split
  · simp
  · split
    · exact ⟨normalize_nonneg _, normalize_sum _ hrange⟩
    · exact ⟨normalize_nonneg _, normalize_sum _ hrange2⟩

/-- C1: for every input weight vector, every valid index and every requested
new value — and more generally after any nonempty sequence of such
renormalization edits — the result of `updateWeightWithRenormalization` has
all entries ≥ 0 and its entries sum to 1 within 1e-6 (over `ℚ` the sum is
exactly 1, so the 1e-6 bound holds). -/
theorem updateWeight_sequence_invariant (prev : List ℚ) (ops : List (ℕ × ℚ))
    (hne : ops ≠ []) (hidx : ∀ op ∈ ops, op.1 < prev.length) :
    (∀ x ∈ ops.foldl (fun acc op => updateWeightWithRenormalization acc op.1 op.2) prev,
        0 ≤ x) ∧
      |(ops.foldl (fun acc op => updateWeightWithRenormalization acc op.1 op.2) prev).sum - 1|
        ≤ 1 / 1000000 := by
  induction ops generalizing prev with
  | nil => exact absurd rfl hne
  | cons op rest ih =>
    have hop : op.1 < prev.length := hidx op (List.mem_cons_self op rest)
    have hprev : prev ≠ [] := by
      intro hc
      rw [hc] at hop
      simp at hop
    rw [List.foldl_cons]
    rcases hrest : rest with _ | ⟨op2, rest2⟩
    · simp only [List.foldl_nil]
      have hu := update_nonneg_sum prev op.1 op.2 hprev
      refine ⟨hu.1, ?_⟩
      rw [hu.2]
      norm_num
    · rw [← hrest]
      apply ih
      · rw [hrest]; simp
      · intro op' hop'
        rw [update_length]
        exact hidx op' (List.mem_cons_of_mem op hop')

theorem updateWeight_sequence_invariant_witness :
    (([((0 : ℕ), (4/5 : ℚ)), (1, 1/2)] : List (ℕ × ℚ)) ≠ [] ∧
        ∀ op ∈ ([((0 : ℕ), (4/5 : ℚ)), (1, 1/2)] : List (ℕ × ℚ)),
          op.1 < ([1/2, 3/10, 1/5] : List ℚ).length) ∧
      ((∀ x ∈ ([((0 : ℕ), (4/5 : ℚ)), (1, 1/2)] : List (ℕ × ℚ)).foldl
            (fun acc op => updateWeightWithRenormalization acc op.1 op.2)
            ([1/2, 3/10, 1/5] : List ℚ), 0 ≤ x) ∧
        |(([((0 : ℕ), (4/5 : ℚ)), (1, 1/2)] : List (ℕ × ℚ)).foldl
            (fun acc op => updateWeightWithRenormalization acc op.1 op.2)
            ([1/2, 3/10, 1/5] : List ℚ)).sum - 1| ≤ 1 / 1000000) :=
  ⟨⟨by simp, by simp⟩,
    updateWeight_sequence_invariant [1/2, 3/10, 1/5] [(0, 4/5), (1, 1/2)]
      (by simp) (by simp)⟩

theorem clamp_eq_self {v : ℚ} (hv0 : 0 ≤ v) (hv1 : v ≤ 1) : clamp v 0 1 = v := by
  rw [clamp, min_eq_right hv1, max_eq_right hv0]

theorem otherSum_singleton (x : ℚ) : otherSum [x] 0 = 0 := by
  simp [otherSum]

/-- The proportional-rescaling branch of `updateWeightWithRenormalization`:
when the old non-edited mass is above the `1e-9` threshold, the edited index
gets `v` and every other index is scaled by `(1 - v) / otherSum`. -/
theorem update_scale_branch (prev : List ℚ) (idx : ℕ) (v : ℚ)
    (hpos : ∀ x ∈ prev, 0 ≤ x) (hidx : idx < prev.length)
    (hv0 : 0 ≤ v) (hv1 : v ≤ 1) (hother : 1 / 1000000000 < otherSum prev idx) :
    (updateWeightWithRenormalization prev idx v).length = prev.length ∧
      ∀ i, i < prev.length → (updateWeightWithRenormalization prev idx v).getD i 0 =
        if i = idx then v else prev.getD i 0 * ((1 - v) / otherSum prev idx) := by
  have hOpos : 0 < otherSum prev idx := lt_trans (by norm_num) hother
  have hn1 : prev.length ≠ 1 := by
    intro hc
    obtain ⟨x, hx⟩ := List.length_eq_one.mp hc
    have hidx0 : idx = 0 := by
      rw [hc] at hidx
      omega
    rw [hx, hidx0, otherSum_singleton] at hOpos
    exact lt_irrefl 0 hOpos
  have hupd : updateWeightWithRenormalization prev idx v
      = normalizeWeightsLongOnly ((List.range prev.length).map fun i =>
          if i = idx then v else prev.getD i 0 * ((1 - v) / otherSum prev idx)) := by
    simp only [updateWeightWithRenormalization, clamp_eq_self hv0 hv1]
    rw [if_neg hn1, if_neg (not_le.mpr hother)]
  have hL0 : ∀ x ∈ (List.range prev.length).map fun i =>
      if i = idx then v else prev.getD i 0 * ((1 - v) / otherSum prev idx), 0 ≤ x := by
    intro x hx
    obtain ⟨i, hi, rfl⟩ := List.mem_map.mp hx
    by_cases h : i = idx
    · simp [h, hv0]
    · rw [if_neg h]
      apply mul_nonneg
      · have hilt : i < prev.length := List.mem_range.mp hi
        rw [List.getD_eq_getElem prev 0 hilt]
        exact hpos _ (List.getElem_mem hilt)
      · exact div_nonneg (by linarith) hOpos.le
  have hLsum : ((List.range prev.length).map fun i =>
      if i = idx then v else prev.getD i 0 * ((1 - v) / otherSum prev idx)).sum = 1 := by
    rw [range_map_sum, sum_ite_index prev.length idx hidx]
    have hterm : ∀ i, (if i = idx then 0 else prev.getD i 0 * ((1 - v) / otherSum prev idx))
        = (if i = idx then 0 else prev.getD i 0) * ((1 - v) / otherSum prev idx) := by
      intro i
      by_cases h : i = idx <;> simp [h]
    rw [Finset.sum_congr rfl fun i _ => hterm i, ← Finset.sum_mul, ← otherSum_eq_sum,
      mul_comm, div_mul_cancel₀ (1 - v) (ne_of_gt hOpos)]
    ring
  have hNL := normalize_of_nonneg_sum_one _ hL0 hLsum
  refine ⟨?_, ?_⟩
  · rw [hupd, hNL]
    simp
  · intro i hi
    rw [hupd, hNL]
    rw [List.getD_eq_getElem _ 0 (by simpa using hi)]
    rw [List.getElem_map, List.getElem_range]

/-- C6: for every non-negative weight vector whose other-index sum exceeds the
`1e-9` threshold, `updateWeightWithRenormalization` sets the edited index to
the requested `v ∈ [0,1]` and rescales every other weight proportionally to
its previous share so the total is 1; in particular for `[0.5, 0.3, 0.2]`
with index 0 set to `0.8` the result is `[0.8, 0.12, 0.08]`. -/
theorem updateWeight_proportional (prev : List ℚ) (idx : ℕ) (v : ℚ)
    (hpos : ∀ x ∈ prev, 0 ≤ x) (hidx : idx < prev.length)
    (hv0 : 0 ≤ v) (hv1 : v ≤ 1) (hother : 1 / 1000000000 < otherSum prev idx) :
    ((updateWeightWithRenormalization prev idx v).length = prev.length ∧
      ∀ i, i < prev.length → (updateWeightWithRenormalization prev idx v).getD i 0 =
        if i = idx then v else prev.getD i 0 * ((1 - v) / otherSum prev idx)) ∧
      updateWeightWithRenormalization [1/2, 3/10, 1/5] 0 (4/5) = [4/5, 3/25, 2/25] := by
  refine ⟨update_scale_branch prev idx v hpos hidx hv0 hv1 hother, ?_⟩
  have hO : otherSum [1/2, 3/10, 1/5] 0 = 1/2 := by
    norm_num [otherSum, List.enum, List.enumFrom, List.foldl]
  have h := update_scale_branch [1/2, 3/10, 1/5] 0 (4/5)
    (by intro x hx; fin_cases hx <;> norm_num) (by norm_num) (by norm_num) (by norm_num)
    (by rw [hO]; norm_num)
  apply List.ext_getElem
  · rw [h.1]
    rfl
  · intro n h1 h2
    have hn3 : n < 3 := by
      rw [h.1] at h1
      simpa using h1
    have hget := h.2 n (by simpa using hn3)
    rw [List.getD_eq_getElem _ 0 h1] at hget
    rw [hget]
    interval_cases n <;> norm_num [hO]

theorem updateWeight_proportional_witness :
    ((∀ x ∈ ([1/2, 3/10, 1/5] : List ℚ), 0 ≤ x) ∧ 0 < ([1/2, 3/10, 1/5] : List ℚ).length ∧
        (0 : ℚ) ≤ 4/5 ∧ (4/5 : ℚ) ≤ 1 ∧ 1 / 1000000000 < otherSum [1/2, 3/10, 1/5] 0) ∧
      (((updateWeightWithRenormalization [1/2, 3/10, 1/5] 0 (4/5)).length
            = ([1/2, 3/10, 1/5] : List ℚ).length ∧
          ∀ i, i < ([1/2, 3/10, 1/5] : List ℚ).length →
            (updateWeightWithRenormalization [1/2, 3/10, 1/5] 0 (4/5)).getD i 0 =
              if i = 0 then 4/5
              else ([1/2, 3/10, 1/5] : List ℚ).getD i 0 * ((1 - 4/5) / otherSum [1/2, 3/10, 1/5] 0)) ∧
        updateWeightWithRenormalization [1/2, 3/10, 1/5] 0 (4/5) = [4/5, 3/25, 2/25]) :=
  ⟨⟨by intro x hx; fin_cases hx <;> norm_num, by norm_num, by norm_num, by norm_num,
      by norm_num [otherSum, List.enum, List.enumFrom, List.foldl]⟩,
    updateWeight_proportional [1/2, 3/10, 1/5] 0 (4/5)
      (by intro x hx; fin_cases hx <;> norm_num) (by norm_num) (by norm_num) (by norm_num)
      (by norm_num [otherSum, List.enum, List.enumFrom, List.foldl])⟩

/-- The uniform-spread branch of `updateWeightWithRenormalization`: when the
old non-edited mass is at most the `1e-9` threshold, the edited index gets
`v` and the remaining `1 - v` is split evenly over the other `n - 1`
indices. -/
theorem update_uniform_branch (prev : List ℚ) (idx : ℕ) (v : ℚ)
    (h2 : 2 ≤ prev.length) (hidx : idx < prev.length)
    (hother : otherSum prev idx ≤ 1 / 1000000000) (hv0 : 0 ≤ v) (hv1 : v ≤ 1) :
    (updateWeightWithRenormalization prev idx v).length = prev.length ∧
      ∀ i, i < prev.length → (updateWeightWithRenormalization prev idx v).getD i 0 =
        if i = idx then v else (1 - v) / ((prev.length : ℚ) - 1) := by
  have hn1 : prev.length ≠ 1 := by omega
  have hcast : (2 : ℚ) ≤ (prev.length : ℚ) := by exact_mod_cast h2
  have hden : (0 : ℚ) < (prev.length : ℚ) - 1 := by linarith
  have hupd : updateWeightWithRenormalization prev idx v
      = normalizeWeightsLongOnly ((List.range prev.length).map fun i =>
          if i = idx then v else (1 - v) / ((prev.length : ℚ) - 1)) := by
    simp only [updateWeightWithRenormalization, clamp_eq_self hv0 hv1]
    rw [if_neg hn1, if_pos hother]
  have hL0 : ∀ x ∈ (List.range prev.length).map fun i =>
      if i = idx then v else (1 - v) / ((prev.length : ℚ) - 1), 0 ≤ x := by
    intro x hx
    obtain ⟨i, _, rfl⟩ := List.mem_map.mp hx
    by_cases h : i = idx
    · simp [h, hv0]
    · rw [if_neg h]
      exact div_nonneg (by linarith) hden.le
  have hLsum : ((List.range prev.length).map fun i =>
      if i = idx then v else (1 - v) / ((prev.length : ℚ) - 1)).sum = 1 := by
    rw [range_map_sum, sum_ite_index prev.length idx hidx]
    have hterm : ∀ i : ℕ, (if i = idx then 0 else (1 - v) / ((prev.length : ℚ) - 1))
        = (1 - v) / ((prev.length : ℚ) - 1) - (if i = idx then (1 - v) / ((prev.length : ℚ) - 1) else 0) := by
      intro i
      by_cases h : i = idx <;> simp [h]
    rw [Finset.sum_congr rfl fun i _ => hterm i, Finset.sum_sub_distrib,
      Finset.sum_const, Finset.card_range, nsmul_eq_mul,
      Finset.sum_ite_eq' (Finset.range prev.length) idx
        (fun _ => (1 - v) / ((prev.length : ℚ) - 1)),
      if_pos (Finset.mem_range.mpr hidx)]
    have : (prev.length : ℚ) * ((1 - v) / ((prev.length : ℚ) - 1))
        - (1 - v) / ((prev.length : ℚ) - 1)
        = ((prev.length : ℚ) - 1) * ((1 - v) / ((prev.length : ℚ) - 1)) := by
      ring
    rw [this, mul_comm, div_mul_cancel₀ (1 - v) (ne_of_gt hden)]
    ring
  have hNL := normalize_of_nonneg_sum_one _ hL0 hLsum
  refine ⟨?_, ?_⟩
  · rw [hupd, hNL]
    simp
  · intro i hi
    rw [hupd, hNL]
    rw [List.getD_eq_getElem _ 0 (by simpa using hi)]
    rw [List.getElem_map, List.getElem_range]

/-- C7: for every weight vector with at least 2 entries whose non-edited
mass is at most the `1e-9` threshold, `updateWeightWithRenormalization`
spreads the remaining `1 - v` uniformly over the other indices; a
single-entry vector always yields `[1]`; and `[1, 0, 0]` with index 0 set to
`0.4` yields `[0.4, 0.3, 0.3]`. -/
theorem updateWeight_uniform_spread (prev : List ℚ) (idx : ℕ) (v : ℚ)
    (h2 : 2 ≤ prev.length) (hidx : idx < prev.length)
    (hother : otherSum prev idx ≤ 1 / 1000000000) (hv0 : 0 ≤ v) (hv1 : v ≤ 1) :
    ((updateWeightWithRenormalization prev idx v).length = prev.length ∧
      ∀ i, i < prev.length → (updateWeightWithRenormalization prev idx v).getD i 0 =
        if i = idx then v else (1 - v) / ((prev.length : ℚ) - 1)) ∧
      (∀ (w : List ℚ) (j : ℕ) (u : ℚ), w.length = 1 →
        updateWeightWithRenormalization w j u = [1]) ∧
      updateWeightWithRenormalization [1, 0, 0] 0 (2/5) = [2/5, 3/10, 3/10] := by
  refine ⟨update_uniform_branch prev idx v h2 hidx hother hv0 hv1, ?_, ?_⟩
  · intro w j u hw
    simp [updateWeightWithRenormalization, hw]
  · have hO : otherSum [1, 0, 0] 0 = 0 := by
      norm_num [otherSum, List.enum, List.enumFrom, List.foldl]
    have h := update_uniform_branch [1, 0, 0] 0 (2/5)
      (by norm_num) (by norm_num) (by rw [hO]; norm_num) (by norm_num) (by norm_num)
    apply List.ext_getElem
    · rw [h.1]
      rfl
    · intro n h1 h2'
      have hn3 : n < 3 := by
        rw [h.1] at h1
        simpa using h1
      have hget := h.2 n (by simpa using hn3)
      rw [List.getD_eq_getElem _ 0 h1] at hget
      rw [hget]
      interval_cases n <;> norm_num

theorem updateWeight_uniform_spread_witness :
    (2 ≤ ([1, 0, 0] : List ℚ).length ∧ 0 < ([1, 0, 0] : List ℚ).length ∧
        otherSum [1, 0, 0] 0 ≤ 1 / 1000000000 ∧ (0 : ℚ) ≤ 2/5 ∧ (2/5 : ℚ) ≤ 1) ∧
      (((updateWeightWithRenormalization [1, 0, 0] 0 (2/5)).length
            = ([1, 0, 0] : List ℚ).length ∧
          ∀ i, i < ([1, 0, 0] : List ℚ).length →
            (updateWeightWithRenormalization [1, 0, 0] 0 (2/5)).getD i 0 =
              if i = 0 then 2/5 else (1 - 2/5) / ((([1, 0, 0] : List ℚ).length : ℚ) - 1)) ∧
        (∀ (w : List ℚ) (j : ℕ) (u : ℚ), w.length = 1 →
          updateWeightWithRenormalization w j u = [1]) ∧
        updateWeightWithRenormalization [1, 0, 0] 0 (2/5) = [2/5, 3/10, 3/10]) :=
  ⟨⟨by norm_num, by norm_num,
      by norm_num [otherSum, List.enum, List.enumFrom, List.foldl], by norm_num, by norm_num⟩,
    updateWeight_uniform_spread [1, 0, 0] 0 (2/5) (by norm_num) (by norm_num)
      (by norm_num [otherSum, List.enum, List.enumFrom, List.foldl]) (by norm_num) (by norm_num)⟩

/-! ## Series alignment -/

/-- `alignSeriesToCommonLength` (source lines 427–432). `Math.min(...lens)`
of an empty spread is `+Infinity`, which fails `Number.isFinite` — modelled
by `List.min? = none`. `s.slice(s.length - N)` takes the last `N` entries;
for a series shorter than `N` (only the empty series can occur, having been
filtered out of `lens`) the JS negative start and the truncated `ℕ`
subtraction both yield the whole series. -/
def alignSeriesToCommonLength (seriesByAsset : List (List ℚ)) : List (List ℚ) :=
  match ((seriesByAsset.map List.length).filter fun l => 0 < l).min? with
  | none => seriesByAsset
  | some N =>
    if N < 2 then seriesByAsset
    else seriesByAsset.map fun s => s.drop (s.length - N)

/-- C9: `alignSeriesToCommonLength` computes `N` as the minimum non-zero
length across assets; if no asset has positive length, or `N < 2`, the input
is returned unmodified; otherwise every series is replaced by its trailing
`N` entries (a suffix of length `min length N`). For series of lengths
`[10, 7, 12]` each output series is the last 7 elements of its original. -/
theorem alignSeries_spec (series : List (List ℚ)) :
    ((((series.map List.length).filter fun l => 0 < l) = [] →
        alignSeriesToCommonLength series = series) ∧
      ∀ N, (((series.map List.length).filter fun l => 0 < l).min? = some N) →
        (N < 2 → alignSeriesToCommonLength series = series) ∧
        (2 ≤ N →
          (N ∈ (series.map List.length).filter (fun l => 0 < l) ∧
            ∀ l ∈ (series.map List.length).filter (fun l => 0 < l), N ≤ l) ∧
          (alignSeriesToCommonLength series).length = series.length ∧
          ∀ i, i < series.length →
            (alignSeriesToCommonLength series).getD i [] <:+ series.getD i [] ∧
            ((alignSeriesToCommonLength series).getD i []).length
              = min (series.getD i []).length N)) ∧
      alignSeriesToCommonLength
          [[0, 1, 2, 3, 4, 5, 6, 7, 8, 9], [0, 1, 2, 3, 4, 5, 6],
            [0, 1, 2, 3, 4, 5, 6, 7, 8, 9, 10, 11]]
        = [[3, 4, 5, 6, 7, 8, 9], [0, 1, 2, 3, 4, 5, 6],
            [5, 6, 7, 8, 9, 10, 11]] := by
  refine ⟨⟨?_, ?_⟩, ?_⟩
  · intro hfilter
    simp [alignSeriesToCommonLength, hfilter]
  · intro N hN
    constructor
    · intro hlt
      simp [alignSeriesToCommonLength, hN, if_pos hlt]
    · intro hge
      have hnlt : ¬ N < 2 := by omega
      have halign : alignSeriesToCommonLength series
          = series.map fun s => s.drop (s.length - N) := by
        simp [alignSeriesToCommonLength, hN, if_neg hnlt]
      refine ⟨List.min?_eq_some_iff'.mp hN, ?_, ?_⟩
      · rw [halign, List.length_map]
      · intro i hi
        rw [halign]
        rw [List.getD_eq_getElem _ [] (by simpa using hi), List.getD_eq_getElem _ [] hi,
          List.getElem_map]
        refine ⟨List.drop_suffix _ _, ?_⟩
        rw [List.length_drop]
        omega
  · decide

/-! ## Statistics engine: mean, covariance, correlation -/

/-- `mean` (source lines 123–125): sum divided by `Math.max(1, length)`. -/
def mean (arr : List ℚ) : ℚ := arr.sum / ((max 1 arr.length : ℕ) : ℚ)

/-- `T = seriesByAsset[0]?.length ?? 0` of `covarianceMatrix`. -/
def covT (seriesByAsset : List (List ℚ)) : ℕ := (seriesByAsset.headD []).length

/-- The inner accumulation loop of `covarianceMatrix` for the pair `(i, j)`:
`Σ_t (s[i][t] - mus[i]) * (s[j][t] - mus[j])` over `t < T`. -/
def covAcc (series : List (List ℚ)) (i j : ℕ) : ℚ :=
  ∑ t ∈ Finset.range (covT series),
    ((series.getD i []).getD t 0 - mean (series.getD i []))
      * ((series.getD j []).getD t 0 - mean (series.getD j []))

/-- Final content of cell `(i, j)` of the array built by `covarianceMatrix`
(source lines 127–148): zero when `T < 2`; otherwise the loop over `j ≥ i`
writes `acc/(T-1)` into both `cov[i][j]` and `cov[j][i]`, so cell `(i, j)`
holds the accumulation for the sorted index pair. -/
def covEntry (series : List (List ℚ)) (i j : ℕ) : ℚ :=
  if covT series < 2 then 0
  else if i ≤ j then covAcc series i j / ((covT series : ℚ) - 1)
  else covAcc series j i / ((covT series : ℚ) - 1)

/-- `covarianceMatrix` as the `n × n` array of its final cell contents. -/
def covarianceMatrix (series : List (List ℚ)) : List (List ℚ) :=
  (List.range series.length).map fun i =>
    (List.range series.length).map fun j => covEntry series i j

theorem covAcc_comm (series : List (List ℚ)) (i j : ℕ) :
    covAcc series i j = covAcc series j i :=
  Finset.sum_congr rfl fun _ _ => mul_comm _ _

theorem covEntry_eq (series : List (List ℚ)) (i j : ℕ) :
    covEntry series i j
      = if covT series < 2 then 0 else covAcc series i j / ((covT series : ℚ) - 1) := by
  rw [covEntry]
  by_cases hij : i ≤ j
  · rw [if_pos hij]
  · rw [if_neg hij, covAcc_comm]

theorem covMatrix_entry (series : List (List ℚ)) (i j : ℕ)
    (hi : i < series.length) (hj : j < series.length) :
    ((covarianceMatrix series).getD i []).getD j 0 = covEntry series i j := by
  rw [covarianceMatrix, List.getD_eq_getElem _ [] (by simpa using hi), List.getElem_map,
    List.getElem_range, List.getD_eq_getElem _ 0 (by simpa using hj), List.getElem_map,
    List.getElem_range]

theorem headD_mem_of_ne_nil {α : Type} (l : List α) (d : α) (h : l ≠ []) :
    l.headD d ∈ l := by
  cases l with
  | nil => exact absurd rfl h
  | cons a t => simp

theorem covT_eq (series : List (List ℚ)) (T : ℕ) (hne : series ≠ [])
    (hT : ∀ s ∈ series, s.length = T) : covT series = T :=
  hT _ (headD_mem_of_ne_nil series [] hne)

/-- C8: for every aligned series set of `n` assets over `T` periods,
`covarianceMatrix` returns the `n × n` matrix whose entries are the
unbiased sample covariances with divisor `T - 1`; the matrix is symmetric,
every diagonal entry is ≥ 0, and for `T < 2` it is the zero matrix. -/
theorem covarianceMatrix_spec (series : List (List ℚ)) (n T : ℕ)
    (hn : series.length = n) (hT : ∀ s ∈ series, s.length = T) :
    (covarianceMatrix series).length = n ∧
      (∀ row ∈ covarianceMatrix series, row.length = n) ∧
      (∀ i j, i < n → j < n →
        ((covarianceMatrix series).getD i []).getD j 0
          = ((covarianceMatrix series).getD j []).getD i 0) ∧
      (∀ i, i < n → 0 ≤ ((covarianceMatrix series).getD i []).getD i 0) ∧
      (2 ≤ T → ∀ i j, i < n → j < n →
        ((covarianceMatrix series).getD i []).getD j 0
          = (∑ t ∈ Finset.range T,
              ((series.getD i []).getD t 0 - mean (series.getD i []))
                * ((series.getD j []).getD t 0 - mean (series.getD j [])))
              / ((T : ℚ) - 1)) ∧
      (T < 2 → ∀ i j, i < n → j < n →
        ((covarianceMatrix series).getD i []).getD j 0 = 0) := by
  subst hn
  have hne_of_pos : 0 < series.length → series ≠ [] := by
    intro hpos hc
    rw [hc] at hpos
    simp at hpos
  refine ⟨by simp [covarianceMatrix], ?_, ?_, ?_, ?_, ?_⟩
  · intro row hrow
    obtain ⟨i, _, rfl⟩ := List.mem_map.mp hrow
    simp
  · intro i j hi hj
    rw [covMatrix_entry series i j hi hj, covMatrix_entry series j i hj hi,
      covEntry_eq, covEntry_eq, covAcc_comm]
  · intro i hi
    rw [covMatrix_entry series i i hi hi, covEntry_eq]
    by_cases hTlt : covT series < 2
    · rw [if_pos hTlt]
    · rw [if_neg hTlt]
      have hden : (0 : ℚ) ≤ (covT series : ℚ) - 1 := by
        have h2 : 2 ≤ covT series := by omega
        have : (2 : ℚ) ≤ (covT series : ℚ) := by exact_mod_cast h2
        linarith
      refine div_nonneg ?_ hden
      exact Finset.sum_nonneg fun _ _ => mul_self_nonneg _
  · intro h2 i j hi hj
    have hcovT : covT series = T := covT_eq series T (hne_of_pos (by omega)) hT
    rw [covMatrix_entry series i j hi hj, covEntry_eq, covAcc, hcovT,
      if_neg (by omega)]
  · intro hlt i j hi hj
    have hcovT : covT series = T := covT_eq series T (hne_of_pos (by omega)) hT
    rw [covMatrix_entry series i j hi hj, covEntry_eq, hcovT, if_pos hlt]

theorem covarianceMatrix_spec_witness :
    (([[1, 2], [2, 4]] : List (List ℚ)).length = 2 ∧
        ∀ s ∈ ([[1, 2], [2, 4]] : List (List ℚ)), s.length = 2) ∧
      ((covarianceMatrix [[1, 2], [2, 4]]).length = 2 ∧
        (∀ row ∈ covarianceMatrix [[1, 2], [2, 4]], row.length = 2) ∧
        (∀ i j, i < 2 → j < 2 →
          ((covarianceMatrix [[1, 2], [2, 4]]).getD i []).getD j 0
            = ((covarianceMatrix [[1, 2], [2, 4]]).getD j []).getD i 0) ∧
        (∀ i, i < 2 → 0 ≤ ((covarianceMatrix [[1, 2], [2, 4]]).getD i []).getD i 0) ∧
        (2 ≤ 2 → ∀ i j, i < 2 → j < 2 →
          ((covarianceMatrix [[1, 2], [2, 4]]).getD i []).getD j 0
            = (∑ t ∈ Finset.range 2,
                ((([[1, 2], [2, 4]] : List (List ℚ)).getD i []).getD t 0
                    - mean (([[1, 2], [2, 4]] : List (List ℚ)).getD i []))
                  * ((([[1, 2], [2, 4]] : List (List ℚ)).getD j []).getD t 0
                    - mean (([[1, 2], [2, 4]] : List (List ℚ)).getD j [])))
                / ((2 : ℚ) - 1)) ∧
        ((2 : ℕ) < 2 → ∀ i j, i < 2 → j < 2 →
          ((covarianceMatrix [[1, 2], [2, 4]]).getD i []).getD j 0 = 0)) :=
  ⟨⟨by simp, by intro s hs; fin_cases hs <;> rfl⟩,
    covarianceMatrix_spec [[1, 2], [2, 4]] 2 2 (by simp)
      (by intro s hs; fin_cases hs <;> rfl)⟩

/-! ## Correlation from covariance -/

/-- Entry `i` of `diagFromCov` (source lines 150–152), as read by
`correlationFromCov` through `sd[i] || 0`: `sqrt(max(0, cov[i][i]))` for an
in-range row and `0` out of range (the `getD` defaults give exactly that). -/
noncomputable def diagSd (cov : List (List ℚ)) (i : ℕ) : ℝ :=
  Real.sqrt ((max 0 ((cov.getD i []).getD i 0) : ℚ) : ℝ)

/-- Entry `(i, j)` of `correlationFromCov` (source lines 154–165):
`cov[i][j] / (sd[i]·sd[j])` when the denominator is positive, else `0`. -/
noncomputable def corrEntry (cov : List (List ℚ)) (i j : ℕ) : ℝ :=
  if 0 < diagSd cov i * diagSd cov j
  then (((cov.getD i []).getD j 0 : ℚ) : ℝ) / (diagSd cov i * diagSd cov j)
  else 0

/-- `correlationFromCov` as the `n × n` array of its entries. -/
noncomputable def correlationFromCov (cov : List (List ℚ)) : List (List ℝ) :=
  (List.range cov.length).map fun i =>
    (List.range cov.length).map fun j => corrEntry cov i j

theorem corrMatrix_entry (cov : List (List ℚ)) (i j : ℕ)
    (hi : i < cov.length) (hj : j < cov.length) :
    ((correlationFromCov cov).getD i []).getD j 0 = corrEntry cov i j := by
  rw [correlationFromCov, List.getD_eq_getElem _ [] (by simpa using hi), List.getElem_map,
    List.getElem_range, List.getD_eq_getElem _ 0 (by simpa using hj), List.getElem_map,
    List.getElem_range]

/-- Cauchy–Schwarz for the sample covariance: the square of an off-diagonal
entry is at most the product of the corresponding variances. -/
theorem covEntry_sq_le (series : List (List ℚ)) (i j : ℕ) :
    covEntry series i j ^ 2 ≤ covEntry series i i * covEntry series j j := by
  by_cases hT : covT series < 2
  · simp [covEntry_eq, hT]
  · have h2 : 2 ≤ covT series := by omega
    have hden : (0 : ℚ) < (covT series : ℚ) - 1 := by
      have : (2 : ℚ) ≤ (covT series : ℚ) := by exact_mod_cast h2
      linarith
    rw [covEntry_eq, covEntry_eq, covEntry_eq, if_neg hT, if_neg hT, if_neg hT]
    have hCS : covAcc series i j ^ 2 ≤ covAcc series i i * covAcc series j j := by
      have hii : covAcc series i i = ∑ t ∈ Finset.range (covT series),
          ((series.getD i []).getD t 0 - mean (series.getD i [])) ^ 2 :=
        Finset.sum_congr rfl fun t _ => (pow_two _).symm
      have hjj : covAcc series j j = ∑ t ∈ Finset.range (covT series),
          ((series.getD j []).getD t 0 - mean (series.getD j [])) ^ 2 :=
        Finset.sum_congr rfl fun t _ => (pow_two _).symm
      rw [hii, hjj, covAcc]
      exact Finset.sum_mul_sq_le_sq_mul_sq (Finset.range (covT series))
        (fun t => (series.getD i []).getD t 0 - mean (series.getD i []))
        (fun t => (series.getD j []).getD t 0 - mean (series.getD j []))
    rw [div_pow, div_mul_div_comm, ← pow_two]
    exact (div_le_div_iff_of_pos_right (pow_pos hden 2)).mpr hCS

/-- C2: every entry of the correlation matrix computed from a sample
covariance matrix lies in `[-1, 1]`; an entry is exactly 0 when either of
the two standard deviations vanishes; and whenever `sd(i)·sd(j) > 0` the
entry equals `cov(i,j) / (sd(i)·sd(j))`. -/
theorem correlation_spec (data : List (List ℚ)) (i j : ℕ)
    (hi : i < data.length) (hj : j < data.length) :
    (-1 ≤ ((correlationFromCov (covarianceMatrix data)).getD i []).getD j 0 ∧
        ((correlationFromCov (covarianceMatrix data)).getD i []).getD j 0 ≤ 1) ∧
      ((diagSd (covarianceMatrix data) i = 0 ∨ diagSd (covarianceMatrix data) j = 0) →
        ((correlationFromCov (covarianceMatrix data)).getD i []).getD j 0 = 0) ∧
      (0 < diagSd (covarianceMatrix data) i * diagSd (covarianceMatrix data) j →
        ((correlationFromCov (covarianceMatrix data)).getD i []).getD j 0
          = ((((covarianceMatrix data).getD i []).getD j 0 : ℚ) : ℝ)
              / (diagSd (covarianceMatrix data) i * diagSd (covarianceMatrix data) j)) := by
  have hlen : (covarianceMatrix data).length = data.length := by
    simp [covarianceMatrix]
  have hi' : i < (covarianceMatrix data).length := by rwa [hlen]
  have hj' : j < (covarianceMatrix data).length := by rwa [hlen]
  have hentry := corrMatrix_entry (covarianceMatrix data) i j hi' hj'
  have hcc : ((covarianceMatrix data).getD i []).getD j 0 = covEntry data i j :=
    covMatrix_entry data i j hi hj
  have hdiagi : diagSd (covarianceMatrix data) i
      = Real.sqrt ((max 0 (covEntry data i i) : ℚ) : ℝ) := by
    rw [diagSd, covMatrix_entry data i i hi hi]
  have hdiagj : diagSd (covarianceMatrix data) j
      = Real.sqrt ((max 0 (covEntry data j j) : ℚ) : ℝ) := by
    rw [diagSd, covMatrix_entry data j j hj hj]
  refine ⟨?_, ?_, ?_⟩
  · by_cases hpos : 0 < diagSd (covarianceMatrix data) i * diagSd (covarianceMatrix data) j
    · have hfac := mul_pos_iff.mp hpos
      rcases hfac with ⟨hA, hB⟩ | ⟨hA, hB⟩
      · have hii_pos : (0 : ℚ) < covEntry data i i := by
          have h1 : (0 : ℝ) < ((max 0 (covEntry data i i) : ℚ) : ℝ) :=
            Real.sqrt_pos.mp (by rwa [hdiagi] at hA)
          have h2 : (0 : ℚ) < max 0 (covEntry data i i) := by exact_mod_cast h1
          rcases lt_max_iff.mp h2 with h | h
          · exact absurd h (lt_irrefl 0)
          · exact h
        have hjj_pos : (0 : ℚ) < covEntry data j j := by
          have h1 : (0 : ℝ) < ((max 0 (covEntry data j j) : ℚ) : ℝ) :=
            Real.sqrt_pos.mp (by rwa [hdiagj] at hB)
          have h2 : (0 : ℚ) < max 0 (covEntry data j j) := by exact_mod_cast h1
          rcases lt_max_iff.mp h2 with h | h
          · exact absurd h (lt_irrefl 0)
          · exact h
        have hA' : diagSd (covarianceMatrix data) i
            = Real.sqrt ((covEntry data i i : ℚ) : ℝ) := by
          rw [hdiagi, max_eq_right hii_pos.le]
        have hB' : diagSd (covarianceMatrix data) j
            = Real.sqrt ((covEntry data j j : ℚ) : ℝ) := by
          rw [hdiagj, max_eq_right hjj_pos.le]
        have hcsR : (((covEntry data i j : ℚ) : ℝ)) ^ 2
            ≤ ((covEntry data i i : ℚ) : ℝ) * ((covEntry data j j : ℚ) : ℝ) := by
          have := covEntry_sq_le data i j
          exact_mod_cast this
        have habs : |((covEntry data i j : ℚ) : ℝ)|
            ≤ diagSd (covarianceMatrix data) i * diagSd (covarianceMatrix data) j := by
          calc |((covEntry data i j : ℚ) : ℝ)|
              = Real.sqrt (((covEntry data i j : ℚ) : ℝ) ^ 2) :=
                (Real.sqrt_sq_eq_abs _).symm
            _ ≤ Real.sqrt (((covEntry data i i : ℚ) : ℝ) * ((covEntry data j j : ℚ) : ℝ)) :=
                Real.sqrt_le_sqrt hcsR
            _ = Real.sqrt ((covEntry data i i : ℚ) : ℝ)
                  * Real.sqrt ((covEntry data j j : ℚ) : ℝ) :=
                Real.sqrt_mul (by exact_mod_cast hii_pos.le) _
            _ = diagSd (covarianceMatrix data) i * diagSd (covarianceMatrix data) j := by
                rw [hA', hB']
        have hdiv : |((covEntry data i j : ℚ) : ℝ)
            / (diagSd (covarianceMatrix data) i * diagSd (covarianceMatrix data) j)| ≤ 1 := by
          rw [abs_div, abs_of_pos hpos]
          exact (div_le_one hpos).mpr habs
        rw [hentry, corrEntry, if_pos hpos, hcc]
        exact abs_le.mp hdiv
      · exfalso
        have := Real.sqrt_nonneg ((max 0 (covEntry data i i) : ℚ) : ℝ)
        rw [← hdiagi] at this
        linarith
    · rw [hentry, corrEntry, if_neg hpos]
      norm_num
  · intro h
    rw [hentry, corrEntry]
    rcases h with h | h <;> rw [h] <;> simp
  · intro hpos
    rw [hentry, corrEntry, if_pos hpos]

theorem correlation_spec_witness :
    ((0 : ℕ) < ([[1, 0], [0, 1]] : List (List ℚ)).length ∧
        (1 : ℕ) < ([[1, 0], [0, 1]] : List (List ℚ)).length) ∧
      ((-1 ≤ ((correlationFromCov (covarianceMatrix [[1, 0], [0, 1]])).getD 0 []).getD 1 0 ∧
          ((correlationFromCov (covarianceMatrix [[1, 0], [0, 1]])).getD 0 []).getD 1 0 ≤ 1) ∧
        ((diagSd (covarianceMatrix [[1, 0], [0, 1]]) 0 = 0 ∨
            diagSd (covarianceMatrix [[1, 0], [0, 1]]) 1 = 0) →
          ((correlationFromCov (covarianceMatrix [[1, 0], [0, 1]])).getD 0 []).getD 1 0 = 0) ∧
        (0 < diagSd (covarianceMatrix [[1, 0], [0, 1]]) 0
              * diagSd (covarianceMatrix [[1, 0], [0, 1]]) 1 →
          ((correlationFromCov (covarianceMatrix [[1, 0], [0, 1]])).getD 0 []).getD 1 0
            = ((((covarianceMatrix [[1, 0], [0, 1]]).getD 0 []).getD 1 0 : ℚ) : ℝ)
                / (diagSd (covarianceMatrix [[1, 0], [0, 1]]) 0
                    * diagSd (covarianceMatrix [[1, 0], [0, 1]]) 1))) :=
  ⟨⟨by simp, by simp⟩, correlation_spec [[1, 0], [0, 1]] 0 1 (by simp) (by simp)⟩

/-! ## Efficient frontier: risk-bucketed upper envelope

`generateEfficientFrontier` (source lines 272–311) samples a cloud of
`{risk, ret, sharpe, w}` points and then extracts the frontier from the
cloud alone; the bucketing stage is embedded here as a function of an
arbitrary cloud, so the theorems quantify over every cloud the sampler
could produce. -/

structure CloudPoint where
  risk : ℚ
  ret : ℚ
  sharpe : ℚ
  w : List ℚ
deriving DecidableEq

/-- The comparator `(a, b) => a.risk - b.risk`: ascending risk. -/
def riskLE (a b : CloudPoint) : Prop := a.risk ≤ b.risk

instance : DecidableRel riskLE := fun a b => inferInstanceAs (Decidable (a.risk ≤ b.risk))

instance : IsTotal CloudPoint riskLE := ⟨fun a b => le_total a.risk b.risk⟩

instance : IsTrans CloudPoint riskLE := ⟨fun _ _ _ hab hbc => le_trans hab hbc⟩

/-- `const sorted = [...cloud].sort((a, b) => a.risk - b.risk)`: a stable
sort by ascending risk. -/
def sortCloudByRisk (cloud : List CloudPoint) : List CloudPoint :=
  List.insertionSort riskLE cloud

/-- `const minR = sorted[0]?.risk ?? 0`. -/
def frontierMinR (cloud : List CloudPoint) : ℚ :=
  ((sortCloudByRisk cloud).head?.map CloudPoint.risk).getD 0

/-- `const maxR = sorted[sorted.length - 1]?.risk ?? 1`. -/
def frontierMaxR (cloud : List CloudPoint) : ℚ :=
  ((sortCloudByRisk cloud).getLast?.map CloudPoint.risk).getD 1

/-- `const step = (maxR - minR) / bucketCount || 1` with `bucketCount = 40`
(`x || 1` replaces a zero result by 1). -/
def frontierStep (cloud : List CloudPoint) : ℚ :=
  if (frontierMaxR cloud - frontierMinR cloud) / 40 = 0 then 1
  else (frontierMaxR cloud - frontierMinR cloud) / 40

/-- `const lo = minR + b * step`. -/
def bucketLo (cloud : List CloudPoint) (b : ℕ) : ℚ :=
  frontierMinR cloud + b * frontierStep cloud

/-- `sorted.filter((p) => p.risk >= lo && p.risk < hi)`. -/
def bucketPoints (cloud : List CloudPoint) (b : ℕ) : List CloudPoint :=
  (sortCloudByRisk cloud).filter fun p =>
    decide (bucketLo cloud b ≤ p.risk) &&
      decide (p.risk < bucketLo cloud b + frontierStep cloud)

/-- One loop iteration of the frontier construction: `continue` on an empty
bucket, else keep `{risk, ret}` of the maximum-return point (the source
`reduce` starts from `inBucket[0]` and scans the whole bucket). -/
def bucketBest (cloud : List CloudPoint) (b : ℕ) : Option (ℚ × ℚ) :=
  match bucketPoints cloud b with
  | [] => none
  | h :: t =>
    let best := (h :: t).foldl (fun best cur => if best.ret < cur.ret then cur else best) h
    some (best.risk, best.ret)

/-- The `frontier` array pushed by the loop `for (b = 0; b < bucketCount; b++)`. -/
def frontierOf (cloud : List CloudPoint) : List (ℚ × ℚ) :=
  (List.range 40).filterMap fun b => bucketBest cloud b

theorem sortCloud_sorted (cloud : List CloudPoint) :
    List.Sorted riskLE (sortCloudByRisk cloud) :=
  List.sorted_insertionSort riskLE cloud

theorem sortCloud_perm (cloud : List CloudPoint) :
    (sortCloudByRisk cloud).Perm cloud :=
  List.perm_insertionSort riskLE cloud

theorem sorted_le_getLast :
    ∀ l : List CloudPoint, List.Sorted riskLE l →
      ∀ p ∈ l, ∀ q, l.getLast? = some q → p.risk ≤ q.risk := by
  intro l
  induction l with
  | nil => intro _ p hp; exact absurd hp (List.not_mem_nil p)
  | cons a t ih =>
    intro hs p hp q hq
    cases t with
    | nil =>
      have hpa : p = a := by simpa using hp
      have hqa : a = q := by simpa using hq
      rw [hpa, ← hqa]
    | cons b t2 =>
      rw [List.getLast?_cons_cons] at hq
      have hs' := List.sorted_cons.mp hs
      have hqmem : q ∈ b :: t2 := by
        obtain ⟨hne, rfl⟩ := List.mem_getLast?_eq_getLast (by simpa using hq)
        exact List.getLast_mem hne
      rcases List.mem_cons.mp hp with rfl | hp2
      · exact hs'.1 q hqmem
      · exact ih hs'.2 p hp2 q hq

theorem frontier_minR_le_maxR (cloud : List CloudPoint) (h : cloud ≠ []) :
    frontierMinR cloud ≤ frontierMaxR cloud := by
  have hsne : sortCloudByRisk cloud ≠ [] := by
    intro hc
    have := (sortCloud_perm cloud).length_eq
    rw [hc] at this
    exact h (List.length_eq_zero.mp this.symm)
  have hlast := List.getLast?_eq_getLast_of_ne_nil hsne
  rw [frontierMinR, frontierMaxR, hlast, List.head?_eq_head hsne]
  simp only [Option.map_some', Option.getD_some]
  exact sorted_le_getLast (sortCloudByRisk cloud) (sortCloud_sorted cloud) _
    (List.head_mem hsne) _ hlast

theorem frontierStep_pos (cloud : List CloudPoint) : 0 < frontierStep cloud := by
  by_cases hc : cloud = []
  · subst hc
    norm_num [frontierStep, frontierMinR, frontierMaxR, sortCloudByRisk, List.insertionSort]
  · have hle : 0 ≤ (frontierMaxR cloud - frontierMinR cloud) / 40 := by
      have := frontier_minR_le_maxR cloud hc
      have hsub : 0 ≤ frontierMaxR cloud - frontierMinR cloud := by linarith
      positivity
    rw [frontierStep]
    split
    · norm_num
    · rename_i hne0
      exact lt_of_le_of_ne hle (Ne.symm hne0)

theorem foldl_best_mem :
    ∀ (l : List CloudPoint) (init : CloudPoint),
      l.foldl (fun best cur => if best.ret < cur.ret then cur else best) init ∈ init :: l := by
  intro l
  induction l with
  | nil => intro init; simp
  | cons a t ih =>
    intro init
    rw [List.foldl_cons]
    rcases List.mem_cons.mp (ih (if init.ret < a.ret then a else init)) with h | h
    · rw [h]
      by_cases hc : init.ret < a.ret
      · simp [hc]
      · simp [hc]
    · exact List.mem_cons_of_mem _ (List.mem_cons_of_mem _ h)

theorem mem_bucketPoints (cloud : List CloudPoint) (b : ℕ) (p : CloudPoint)
    (hp : p ∈ bucketPoints cloud b) :
    p ∈ sortCloudByRisk cloud ∧ bucketLo cloud b ≤ p.risk ∧
      p.risk < bucketLo cloud b + frontierStep cloud := by
  have h := List.mem_filter.mp hp
  refine ⟨h.1, ?_, ?_⟩
  · have := h.2
    simp only [Bool.and_eq_true, decide_eq_true_iff] at this
    exact this.1
  · have := h.2
    simp only [Bool.and_eq_true, decide_eq_true_iff] at this
    exact this.2

theorem bucketBest_mem (cloud : List CloudPoint) (b : ℕ) (q : ℚ × ℚ)
    (hq : bucketBest cloud b = some q) :
    ∃ p ∈ bucketPoints cloud b, q = (p.risk, p.ret) := by
  rw [bucketBest] at hq
  rcases hmatch : bucketPoints cloud b with _ | ⟨h, t⟩
  · rw [hmatch] at hq
    exact absurd hq (by simp)
  · rw [hmatch] at hq
    simp only [Option.some.injEq] at hq
    refine ⟨(h :: t).foldl (fun best cur => if best.ret < cur.ret then cur else best) h,
      ?_, hq.symm⟩
    rcases List.mem_cons.mp (foldl_best_mem (h :: t) h) with he | he
    · rw [he]; exact List.mem_cons_self h t
    · exact he

theorem bucketHi_le_lo (cloud : List CloudPoint) (b b' : ℕ) (hb : b < b') :
    bucketLo cloud b + frontierStep cloud ≤ bucketLo cloud b' := by
  rw [bucketLo, bucketLo]
  have hstep := (frontierStep_pos cloud).le
  have hcast : ((b : ℚ) + 1) ≤ (b' : ℚ) := by exact_mod_cast hb
  have := mul_le_mul_of_nonneg_right hcast hstep
  nlinarith [this]

instance : IsTrans (ℚ × ℚ) fun a b => a.1 ≤ b.1 := ⟨fun _ _ _ h1 h2 => le_trans h1 h2⟩

/-- C5: for every cloud, the risk values of consecutive entries of the
frontier emitted by the bucketing stage of `generateEfficientFrontier` are
non-decreasing. -/
theorem frontier_monotone (cloud : List CloudPoint) :
    List.Chain' (fun a b : ℚ × ℚ => a.1 ≤ b.1) (frontierOf cloud) := by
  rw [List.chain'_iff_pairwise, frontierOf, List.pairwise_filterMap]
  refine List.Pairwise.imp ?_ (List.pairwise_lt_range 40)
  intro b b' hbb x hx y hy
  obtain ⟨p, hp, rfl⟩ := bucketBest_mem cloud b x (Option.mem_def.mp hx)
  obtain ⟨q, hq, rfl⟩ := bucketBest_mem cloud b' y (Option.mem_def.mp hy)
  have hpB := mem_bucketPoints cloud b p hp
  have hqB := mem_bucketPoints cloud b' q hq
  have h1 : p.risk < bucketLo cloud b + frontierStep cloud := hpB.2.2
  have h2 : bucketLo cloud b + frontierStep cloud ≤ bucketLo cloud b' :=
    bucketHi_le_lo cloud b b' hbb
  have h3 : bucketLo cloud b' ≤ q.risk := hqB.2.1
  show p.risk ≤ q.risk
  linarith

/-- C4 counterexample: for the empty cloud, `sorted[0]?.risk ?? 0` and
`sorted[length-1]?.risk ?? 1` default to 0 and 1, so the bucket width is
`(1 - 0)/40 = 1/40`, not the claimed fallback of 1. -/
theorem frontierStep_empty_cex :
    frontierStep ([] : List CloudPoint) = 1 / 40 ∧ (1 / 40 : ℚ) ≠ 1 := by
  constructor
  · norm_num [frontierStep, frontierMinR, frontierMaxR, sortCloudByRisk, List.insertionSort]
  · norm_num

/-- C4 (amended): the `|| 1` fallback to bucket width 1 fires exactly when
`(maxR - minR)/40 = 0`, i.e. for a non-empty cloud whose maximum sampled
risk equals its minimum; an empty cloud instead gets the default range
`[0, 1]` and width `1/40`; in every case the width is positive, so the
bucket boundaries are well defined and a degenerate sample is not an
error. -/
theorem frontierStep_fallback (cloud : List CloudPoint) :
    (cloud ≠ [] → frontierMaxR cloud = frontierMinR cloud → frontierStep cloud = 1) ∧
      (cloud = [] → frontierStep cloud = 1 / 40) ∧
      0 < frontierStep cloud := by
  refine ⟨?_, ?_, frontierStep_pos cloud⟩
  · intro _ heq
    simp [frontierStep, heq]
  · intro h
    subst h
    norm_num [frontierStep, frontierMinR, frontierMaxR, sortCloudByRisk, List.insertionSort]

/-- C10: bucket membership demands risk strictly below the bucket's upper
bound, so when the cloud is non-empty and its maximum risk strictly exceeds
its minimum risk, the point of maximum risk lies in no bucket and every
frontier entry has risk strictly below the cloud's maximum risk. -/
theorem frontier_max_excluded (cloud : List CloudPoint) (hne : cloud ≠ [])
    (hlt : frontierMinR cloud < frontierMaxR cloud) :
    (∀ p ∈ cloud, p.risk ≤ frontierMaxR cloud) ∧
      (∀ p ∈ cloud, p.risk = frontierMaxR cloud →
        ∀ b, b < 40 → ¬ (bucketLo cloud b ≤ p.risk ∧
          p.risk < bucketLo cloud b + frontierStep cloud)) ∧
      ∀ q ∈ frontierOf cloud, q.1 < frontierMaxR cloud := by
  have hstep_eq : frontierStep cloud = (frontierMaxR cloud - frontierMinR cloud) / 40 := by
    rw [frontierStep, if_neg]
    intro hzero
    rw [div_eq_zero_iff] at hzero
    rcases hzero with hzero | hzero
    · have : frontierMaxR cloud = frontierMinR cloud := by linarith [sub_eq_zero.mp hzero]
      linarith
    · norm_num at hzero
  have hd0 : 0 ≤ (frontierMaxR cloud - frontierMinR cloud) / 40 :=
    div_nonneg (by linarith) (by norm_num)
  have hhi : ∀ b : ℕ, b < 40 →
      bucketLo cloud b + frontierStep cloud ≤ frontierMaxR cloud := by
    intro b hb
    rw [bucketLo, hstep_eq]
    have hb1 : ((b : ℚ) + 1) ≤ 40 := by exact_mod_cast hb
    have hmul := mul_le_mul_of_nonneg_right hb1 hd0
    have h40 : (40 : ℚ) * ((frontierMaxR cloud - frontierMinR cloud) / 40)
        = frontierMaxR cloud - frontierMinR cloud := by
      field_simp
    nlinarith [hmul, h40]
  have hmax_le : ∀ p ∈ cloud, p.risk ≤ frontierMaxR cloud := by
    intro p hp
    have hsne : sortCloudByRisk cloud ≠ [] := by
      intro hc
      have := (sortCloud_perm cloud).length_eq
      rw [hc] at this
      exact hne (List.length_eq_zero.mp this.symm)
    have hlast := List.getLast?_eq_getLast_of_ne_nil hsne
    have hp' : p ∈ sortCloudByRisk cloud := (sortCloud_perm cloud).mem_iff.mpr hp
    have := sorted_le_getLast (sortCloudByRisk cloud) (sortCloud_sorted cloud) p hp' _ hlast
    rw [frontierMaxR, hlast]
    simpa using this
  refine ⟨hmax_le, ?_, ?_⟩
  · intro p _ hpmax b hb hcontra
    have := hhi b hb
    rw [hpmax] at hcontra
    linarith [hcontra.2]
  · intro q hq
    obtain ⟨b, hbmem, hbq⟩ := List.mem_filterMap.mp hq
    obtain ⟨p, hp, rfl⟩ := bucketBest_mem cloud b q hbq
    have hpB := mem_bucketPoints cloud b p hp
    have := hhi b (List.mem_range.mp hbmem)
    have h1 : p.risk < bucketLo cloud b + frontierStep cloud := hpB.2.2
    show p.risk < frontierMaxR cloud
    linarith

theorem frontier_max_excluded_witness :
    (([⟨0, 0, 0, []⟩, ⟨1, 0, 0, []⟩] : List CloudPoint) ≠ [] ∧
        frontierMinR [⟨0, 0, 0, []⟩, ⟨1, 0, 0, []⟩]
          < frontierMaxR [⟨0, 0, 0, []⟩, ⟨1, 0, 0, []⟩]) ∧
      ((∀ p ∈ ([⟨0, 0, 0, []⟩, ⟨1, 0, 0, []⟩] : List CloudPoint),
          p.risk ≤ frontierMaxR [⟨0, 0, 0, []⟩, ⟨1, 0, 0, []⟩]) ∧
        (∀ p ∈ ([⟨0, 0, 0, []⟩, ⟨1, 0, 0, []⟩] : List CloudPoint),
          p.risk = frontierMaxR [⟨0, 0, 0, []⟩, ⟨1, 0, 0, []⟩] →
          ∀ b, b < 40 → ¬ (bucketLo [⟨0, 0, 0, []⟩, ⟨1, 0, 0, []⟩] b ≤ p.risk ∧
            p.risk < bucketLo [⟨0, 0, 0, []⟩, ⟨1, 0, 0, []⟩] b
              + frontierStep [⟨0, 0, 0, []⟩, ⟨1, 0, 0, []⟩])) ∧
        ∀ q ∈ frontierOf [⟨0, 0, 0, []⟩, ⟨1, 0, 0, []⟩],
          q.1 < frontierMaxR [⟨0, 0, 0, []⟩, ⟨1, 0, 0, []⟩]) :=
  ⟨⟨by simp, by norm_num [frontierMinR, frontierMaxR, sortCloudByRisk, List.insertionSort,
        List.orderedInsert, riskLE]⟩,
    frontier_max_excluded [⟨0, 0, 0, []⟩, ⟨1, 0, 0, []⟩] (by simp)
      (by norm_num [frontierMinR, frontierMaxR, sortCloudByRisk, List.insertionSort,
        List.orderedInsert, riskLE])⟩

/-! ## CSV ingestion

`parseCsvOhlcvCloseReturns` (source lines 377–423). JS string builtins are
embedded as functions on `List Char` (`String.data`): the regex split
`/\r?\n/` is a split on `'\n'` (the subsequent `trim` of every line removes
a trailing `'\r'` just as the regex would); `Number(...)` — a JS builtin,
not repository code — is a parameter `num` where `none` stands for a
non-finite result (an out-of-range column access gives `NaN`, hence is
`none` by construction); `localeCompare` ordering of date strings is
lexicographic order on code points; the stable `Array.prototype.sort` is an
insertion sort. -/

def jsSplit (sep : Char) : List Char → List (List Char)
  | [] => [[]]
  | c :: cs =>
    match jsSplit sep cs with
    | [] => [[c]]
    | h :: t => if c = sep then [] :: h :: t else (c :: h) :: t

def jsTrim (cs : List Char) : List Char :=
  ((cs.dropWhile Char.isWhitespace).reverse.dropWhile Char.isWhitespace).reverse

def jsToLower (cs : List Char) : List Char := cs.map Char.toLower

/-- `text.split(/\r?\n/).map(trim).filter(Boolean)`. -/
def csvLines (text : String) : List (List Char) :=
  ((jsSplit '\n' text.data).map jsTrim).filter fun l => !l.isEmpty

/-- `lines[0].split(",").map(s => s.trim().toLowerCase())`. -/
def csvHeader (text : String) : List (List Char) :=
  (jsSplit ',' ((csvLines text).headD [])).map fun s => jsToLower (jsTrim s)

/-- One iteration of the row loop: skip the row when the date cell is empty
or the close cell is missing/non-finite, else keep `{date, close}`. -/
def csvParseRow (num : List Char → Option ℚ) (dateIdx closeIdx : ℕ)
    (line : List Char) : Option (List Char × ℚ) :=
  let cols := (jsSplit ',' line).map jsTrim
  let date := cols.getD dateIdx []
  if date = [] then none
  else
    match cols.get? closeIdx with
    | none => none
    | some cstr =>
      match num cstr with
      | none => none
      | some c => some (date, c)

/-- The `rows` array after the filtering loop over `lines.slice(1)`. -/
def csvValidRows (num : List Char → Option ℚ) (dateIdx closeIdx : ℕ)
    (text : String) : List (List Char × ℚ) :=
  ((csvLines text).drop 1).filterMap (csvParseRow num dateIdx closeIdx)

/-- Lexicographic order on code points, the model of `localeCompare`. -/
def lexLe : List Char → List Char → Bool
  | [], _ => true
  | _ :: _, [] => false
  | x :: xs, y :: ys => if x = y then lexLe xs ys else decide (x < y)

def rowLE (a b : List Char × ℚ) : Prop := lexLe a.1 b.1 = true

instance : DecidableRel rowLE := fun a b => inferInstanceAs (Decidable (lexLe a.1 b.1 = true))

/-- The tail of `parseCsvOhlcvCloseReturns` once both header columns are
found: minimum-row check, sort by date, consecutive simple returns skipping
non-positive previous closes, and the minimum-return check. -/
def csvAfterHeader (num : List Char → Option ℚ) (dateIdx closeIdx : ℕ)
    (text : String) : Except String (List ℚ) :=
  if (csvValidRows num dateIdx closeIdx text).length < 2 then
    Except.error "Za mało poprawnych rekordów (Date/Close)."
  else
    let sorted := List.insertionSort rowLE (csvValidRows num dateIdx closeIdx text)
    let rets := (sorted.zip sorted.tail).filterMap fun pc =>
      if pc.1.2 ≤ 0 then none else some (pc.2.2 / pc.1.2 - 1)
    if rets.length < 2 then
      Except.error "Po przeliczeniu zwrotów jest za mało punktów (min. 2)."
    else Except.ok rets

def parseCsvOhlcvCloseReturns (num : List Char → Option ℚ) (text : String) :
    Except String (List ℚ) :=
  if (csvLines text).length < 3 then
    Except.error "CSV jest za krótki (min. 2 wiersze danych)."
  else
    match (csvHeader text).findIdx? (fun h => h == "date".data),
        (csvHeader text).findIdx? (fun h => h == "close".data) with
    | some dateIdx, some closeIdx => csvAfterHeader num dateIdx closeIdx text
    | _, _ =>
      Except.error
        "CSV musi mieć kolumny \"Date\" i \"Close\" (np. Date,Open,High,Low,Close,Volume)."

/-- C3 (amended): for any close-value parser and any input with at least 3
nonempty trimmed lines, parsing fails with the column-missing error whenever
the case-insensitive header lacks `date` or `close`, and fails with the
too-few-valid-records error whenever both columns exist but exactly one
valid row survives the date/close filtering; an error result never carries a
return series. (Inputs with fewer than 3 nonempty lines fail earlier, with
the too-short error — see the counterexample.) -/
theorem csv_rejection (num : List Char → Option ℚ) (text : String)
    (h3 : 3 ≤ (csvLines text).length) :
    (((csvHeader text).findIdx? (fun h => h == "date".data) = none ∨
        (csvHeader text).findIdx? (fun h => h == "close".data) = none) →
      parseCsvOhlcvCloseReturns num text
        = Except.error
            "CSV musi mieć kolumny \"Date\" i \"Close\" (np. Date,Open,High,Low,Close,Volume).") ∧
      (∀ dateIdx closeIdx,
        (csvHeader text).findIdx? (fun h => h == "date".data) = some dateIdx →
        (csvHeader text).findIdx? (fun h => h == "close".data) = some closeIdx →
        (csvValidRows num dateIdx closeIdx text).length = 1 →
        parseCsvOhlcvCloseReturns num text
          = Except.error "Za mało poprawnych rekordów (Date/Close).") ∧
      ∀ e, parseCsvOhlcvCloseReturns num text = Except.error e →
        ∀ rets, parseCsvOhlcvCloseReturns num text ≠ Except.ok rets := by
  have hnot3 : ¬ (csvLines text).length < 3 := by omega
  refine ⟨?_, ?_, ?_⟩
  · intro hcol
    rw [parseCsvOhlcvCloseReturns, if_neg hnot3]
    rcases hcol with h | h
    · rw [h]
    · rcases hd : (csvHeader text).findIdx? (fun h => h == "date".data) with _ | di
      · rfl
      · rw [h]
  · intro dateIdx closeIdx hdi hci hrows
    rw [parseCsvOhlcvCloseReturns, if_neg hnot3, hdi, hci]
    show csvAfterHeader num dateIdx closeIdx text = _
    rw [csvAfterHeader, if_pos (by omega)]
  · intro e he rets hok
    rw [he] at hok
    exact Except.noConfusion hok

/-- C3 counterexample: a 2-line CSV whose header lacks `close` fails with the
too-short error, not the column-missing error the claim requires for every
input without a `close` column. -/
theorem csv_rejection_cex :
    (csvHeader "Date,Open,High,Low,Volume\n1").findIdx? (fun h => h == "close".data) = none ∧
      parseCsvOhlcvCloseReturns (fun _ => none) "Date,Open,High,Low,Volume\n1"
        = Except.error "CSV jest za krótki (min. 2 wiersze danych)." ∧
      ("CSV jest za krótki (min. 2 wiersze danych)." : String)
        ≠ "CSV musi mieć kolumny \"Date\" i \"Close\" (np. Date,Open,High,Low,Close,Volume)." := by
  refine ⟨by decide, ?_, by decide⟩
  rw [parseCsvOhlcvCloseReturns, if_pos (by decide)]

theorem csv_rejection_witness :
    3 ≤ (csvLines "Date,Open\n1,2\n3,4").length ∧
      ((((csvHeader "Date,Open\n1,2\n3,4").findIdx? (fun h => h == "date".data) = none ∨
          (csvHeader "Date,Open\n1,2\n3,4").findIdx? (fun h => h == "close".data) = none) →
        parseCsvOhlcvCloseReturns (fun _ => none) "Date,Open\n1,2\n3,4"
          = Except.error
              "CSV musi mieć kolumny \"Date\" i \"Close\" (np. Date,Open,High,Low,Close,Volume).") ∧
        (∀ dateIdx closeIdx,
          (csvHeader "Date,Open\n1,2\n3,4").findIdx? (fun h => h == "date".data) = some dateIdx →
          (csvHeader "Date,Open\n1,2\n3,4").findIdx? (fun h => h == "close".data) = some closeIdx →
          (csvValidRows (fun _ => none) dateIdx closeIdx "Date,Open\n1,2\n3,4").length = 1 →
          parseCsvOhlcvCloseReturns (fun _ => none) "Date,Open\n1,2\n3,4"
            = Except.error "Za mało poprawnych rekordów (Date/Close).") ∧
        ∀ e, parseCsvOhlcvCloseReturns (fun _ => none) "Date,Open\n1,2\n3,4" = Except.error e →
          ∀ rets, parseCsvOhlcvCloseReturns (fun _ => none) "Date,Open\n1,2\n3,4"
            ≠ Except.ok rets) :=
  ⟨by decide, csv_rejection (fun _ => none) "Date,Open\n1,2\n3,4" (by decide)⟩
